import Mathlib

/-!
Verification of the `cryss` lexical analyzer (`src/lexer.rs`, `src/pos.rs`,
`src/error.rs`) against its natural-language specification.

The Rust source is shallowly embedded: each Rust function becomes a Lean
function over explicit state; the `&mut` state of `Inner` and `Lexer` is
threaded as values.  Byte positions are computed from UTF-8 sizes exactly as
Rust's `char_indices` does.
-/

namespace Cryss

/-- Source position, 0-indexed `(line, byte)` as in `pos.rs` (`struct Pos`). -/
structure Pos where
  line : Nat
  byte : Nat
deriving DecidableEq, Repr

/-- Lexicographic order on positions; mirrors Rust's `derive(PartialOrd, Ord)`
on `Pos { line, byte }`. -/
def Pos.le (a b : Pos) : Bool :=
  a.line < b.line || (a.line = b.line && a.byte ≤ b.byte)

/-- Half-open source span `[start, stop)`, `struct Range` of `pos.rs`.
The Rust field `end` is named `stop` here (`end` is a Lean keyword). -/
structure Range where
  start : Pos
  stop : Pos
deriving DecidableEq, Repr

/-- `Range::new` of `pos.rs`.  The Rust code runs `debug_assert!(start <= end)`
and then builds the range; the debug assertion is modelled as a checked
precondition, `none` standing for the assertion failure (contract violation). -/
def Range.new (start stop : Pos) : Option Range :=
  if Pos.le start stop then some { start := start, stop := stop } else none

/-- `impl Add<Range> for Range` of `pos.rs`:
`debug_assert!(self.end <= other.start); Range::new(self.start, other.end)`.
As in `Range.new`, the debug assertion is modelled as a checked precondition. -/
def Range.add (self other : Range) : Option Range :=
  if Pos.le self.stop other.start then Range.new self.start other.stop else none

/-- Modelled from the spec: the `Token` enum lives in `token.rs`, which is not
under `src/`; its constructors are reconstructed from their uses in
`src/lexer.rs` and the spec's token list.  The source stores the parsed `f64`
in `Number`; since every numeric lexeme produced by the automaton
(`[0-9]+`, `[0-9]+\.[0-9]*`, `\.[0-9]+`, with optional exponent) is accepted by
Rust's `f64` parser, the embedding keeps the lexeme text instead of the float,
which leaves the token-kind behaviour identical. -/
inductive Token where
  | KeywordIf
  | KeywordElse
  | KeywordWhile
  | KeywordFor
  | KeywordLet
  | KeywordDef
  | KeywordBreak
  | KeywordContinue
  | KeywordReturn
  | Identifier (s : String)
  | Parameter (s : String)
  | Number (lexeme : String)
  | String (s : String)
  | Plus
  | Hyphen
  | HyphenGreater
  | Asterisk
  | Slash
  | Percent
  | Circumflex
  | Equal
  | EqualGreater
  | DoubleEqual
  | Exclamation
  | ExclamationEqual
  | Less
  | DoubleLess
  | Greater
  | DoubleGreater
  | DoubleAmpersand
  | Bar
  | DoubleBar
  | Colon
  | Semicolon
  | Comma
  | Question
  | OpeningParenthesis
  | ClosingParenthesis
  | OpeningBracket
  | ClosingBracket
  | OpeningBrace
  | ClosingBrace
deriving DecidableEq, Repr

/-- The error enum of `error.rs` (the lexer-reachable kinds).
`IncompleteScientific` renders the source's incomplete-scientific-notation
error; the float-parse failure kind (`error.rs` line 14) carries a
`std::num::ParseFloatError` and is unreachable for lexemes produced by the
automaton, so it is modelled without the foreign payload. -/
inductive Error where
  | UnexpectedCharacter (pos : Pos)
  | NoCharacterAfterBackSlash (pos : Pos)
  | UnterminatedComment (pos : Pos)
  | UnterminatedStringLiteral (pos : Pos)
  | NoLineFeedAtEOF
  | IncompleteScientific (range : Range)
  | SingleAmpersand (range : Range)
  | SingleDot (range : Range)
  | ParseFloatFailure (range : Range)
deriving DecidableEq, Repr

/-- Automaton states, `enum State` of `lexer.rs`. -/
inductive State where
  | Identifier
  | Parameter
  | Integer
  | Decimal
  | ScientificIncomplete
  | ScientificSign
  | Scientific
  | String (s : String)
  | Plus
  | Hyphen
  | HyphenGreater
  | Asterisk
  | Slash
  | Percent
  | Circumflex
  | Equal
  | EqualGreater
  | DoubleEqual
  | Exclamation
  | ExclamationEqual
  | Less
  | DoubleLess
  | Greater
  | DoubleGreater
  | Ampersand
  | DoubleAmpersand
  | Bar
  | DoubleBar
  | Colon
  | Semicolon
  | Comma
  | Dot
  | Question
  | OpeningParenthesis
  | ClosingParenthesis
  | OpeningBracket
  | ClosingBracket
  | OpeningBrace
  | ClosingBrace
deriving DecidableEq, Repr

/-- Cross-line lexer state, `struct Inner` of `lexer.rs`: the block-comment
nesting stack (a `Vec<Pos>`, pushed at the back) and the open string literal. -/
structure Inner where
  comment : List Pos
  string : Option (Pos × String)
deriving DecidableEq, Repr

/-- `Inner::new`. -/
def Inner.new : Inner :=
  { string := none, comment := [] }

/-- An inclusive character-range test, mirroring Rust range patterns such
as `'a'..='z'` in the `match` arms of `Inner::begin` and `Inner::run`. -/
def inRange (lo hi c : Char) : Bool :=
  lo ≤ c && c ≤ hi

/-- The character class `'a'..='z' | 'A'..='Z' | '_'` used by `Inner::begin`
to start an identifier. -/
def identStartChar (c : Char) : Bool :=
  inRange 'a' 'z' c || inRange 'A' 'Z' c || c = '_'

/-- The character class `'a'..='z' | 'A'..='Z' | '_' | '$' | '0'..='9'` that
extends `Identifier` and `Parameter` states in the transition table. -/
def identContChar (c : Char) : Bool :=
  inRange 'a' 'z' c || inRange 'A' 'Z' c || c = '_' || c = '$' ||
    inRange '0' '9' c

/-- The character class `'0'..='9'`. -/
def digitChar (c : Char) : Bool :=
  inRange '0' '9' c

/-- Rust's `char::is_ascii_whitespace`: space, horizontal tab, line feed,
form feed, carriage return. -/
def isAsciiWhitespace (c : Char) : Bool :=
  c = ' ' || c = '\t' || c = '\n' || c = '\x0c' || c = '\r'

/-- The token-extending part of the transition table of `Inner::run`
(the `match (prev_state, c)` arms that assign a next state; the two special
arms `(Slash, '/')` and `(Slash, '*')` are handled in `runAux` itself, and
`none` is the fall-through to the token-finalizing default arm). -/
def nextState (prev : State) (c : Char) : Option State :=
  match prev with
  | .Identifier => if identContChar c then some .Identifier else none
  | .Parameter => if identContChar c then some .Parameter else none
  | .Integer =>
      if digitChar c then some .Integer
      else if c = '.' then some .Decimal
      else if c = 'e' || c = 'E' then some .ScientificIncomplete
      else none
  | .Dot => if digitChar c then some .Decimal else none
  | .Decimal =>
      if digitChar c then some .Decimal
      else if c = 'e' || c = 'E' then some .ScientificIncomplete
      else none
  | .ScientificIncomplete =>
      if c = '+' || c = '-' then some .ScientificSign
      else if digitChar c then some .Scientific
      else none
  | .ScientificSign => if digitChar c then some .Scientific else none
  | .Scientific => if digitChar c then some .Scientific else none
  | .Equal =>
      if c = '=' then some .DoubleEqual
      else if c = '>' then some .EqualGreater
      else none
  | .Hyphen => if c = '>' then some .HyphenGreater else none
  | .Exclamation => if c = '=' then some .ExclamationEqual else none
  | .Ampersand => if c = '&' then some .DoubleAmpersand else none
  | .Bar => if c = '|' then some .DoubleBar else none
  | .Less => if c = '<' then some .DoubleLess else none
  | .Greater => if c = '>' then some .DoubleGreater else none
  | _ => none

/-- The identifier-classification arm of token finalization
(`lexer.rs` lines 149-160): the accumulated identifier text is matched
against the reserved-keyword table, and any other text becomes a generic
identifier token with exactly that text.  Rust's `match` on `&str` literals
is an equality chain. -/
def classifyIdentifier (s : String) : Token :=
  if s = "if" then .KeywordIf
  else if s = "else" then .KeywordElse
  else if s = "while" then .KeywordWhile
  else if s = "for" then .KeywordFor
  else if s = "let" then .KeywordLet
  else if s = "def" then .KeywordDef
  else if s = "break" then .KeywordBreak
  else if s = "continue" then .KeywordContinue
  else if s = "return" then .KeywordReturn
  else .Identifier s

/-- Rust `char_indices`: each character of the line paired with its byte
offset, starting at offset `i`. -/
def charIndicesAux (i : Nat) : List Char → List (Nat × Char)
  | [] => []
  | c :: cs => (i, c) :: charIndicesAux (i + c.utf8Size) cs

/-- `line.char_indices()` as a list of `(byte offset, char)` pairs. -/
def charIndices (line : String) : List (Nat × Char) :=
  charIndicesAux 0 line.toList

/-- The byte slice `&line[start..stop]` taken at character boundaries: the
characters of `line` whose byte offset lies in `[start, stop)`. -/
def sliceBytes (line : String) (start stop : Nat) : String :=
  String.mk <| (charIndices line).filterMap fun ic =>
    if start ≤ ic.1 && ic.1 < stop then some ic.2 else none

/-- Token finalization (the default arm of the `match (prev_state, c)` of
`Inner::run`, `lexer.rs` lines 146-216): maps the finished automaton state
to its token, or to a lexical error.  `start` is the token's start position
and `p` the position of the character at which it was cut off.
Numeric states parse the lexeme as `f64` in Rust; that parse accepts every
lexeme reachable in these states, so the embedding keeps the lexeme. -/
def finalize (line : String) (start p : Pos) (st : State) : Except Error Token :=
  match st with
  | .Identifier => .ok (classifyIdentifier (sliceBytes line start.byte p.byte))
  | .Parameter => .ok (.Parameter (sliceBytes line start.byte p.byte))
  | .Integer => .ok (.Number (sliceBytes line start.byte p.byte))
  | .Decimal => .ok (.Number (sliceBytes line start.byte p.byte))
  | .Scientific => .ok (.Number (sliceBytes line start.byte p.byte))
  | .ScientificIncomplete => .error (.IncompleteScientific { start := start, stop := p })
  | .ScientificSign => .error (.IncompleteScientific { start := start, stop := p })
  | .String s => .ok (.String s)
  | .Plus => .ok .Plus
  | .Hyphen => .ok .Hyphen
  | .HyphenGreater => .ok .HyphenGreater
  | .Asterisk => .ok .Asterisk
  | .Slash => .ok .Slash
  | .Percent => .ok .Percent
  | .Circumflex => .ok .Circumflex
  | .Equal => .ok .Equal
  | .EqualGreater => .ok .EqualGreater
  | .DoubleEqual => .ok .DoubleEqual
  | .Exclamation => .ok .Exclamation
  | .ExclamationEqual => .ok .ExclamationEqual
  | .Less => .ok .Less
  | .DoubleLess => .ok .DoubleLess
  | .Greater => .ok .Greater
  | .DoubleGreater => .ok .DoubleGreater
  | .Ampersand => .error (.SingleAmpersand { start := start, stop := p })
  | .DoubleAmpersand => .ok .DoubleAmpersand
  | .Bar => .ok .Bar
  | .DoubleBar => .ok .DoubleBar
  | .Colon => .ok .Colon
  | .Semicolon => .ok .Semicolon
  | .Comma => .ok .Comma
  | .Dot => .error (.SingleDot { start := start, stop := p })
  | .Question => .ok .Question
  | .OpeningParenthesis => .ok .OpeningParenthesis
  | .ClosingParenthesis => .ok .ClosingParenthesis
  | .OpeningBracket => .ok .OpeningBracket
  | .ClosingBracket => .ok .ClosingBracket
  | .OpeningBrace => .ok .OpeningBrace
  | .ClosingBrace => .ok .ClosingBrace

/-- The escape table applied to the character following `\` inside a string
literal (`lexer.rs` lines 91-100). -/
def escape (c : Char) : Char :=
  match c with
  | 'n' => '\n'
  | 'r' => '\r'
  | 't' => '\t'
  | '0' => '\x00'
  | c => c

/-- `Inner::begin`: the transition from no open token on character `c` at
position `p`.  Returns the updated cross-line state (a `"` opens a string
literal) and the new automaton state (`none` for whitespace and for the
string opener).  The source's `match` uses range patterns for the first
three arms; they are rendered as the three class tests, the remaining arms
are single characters (`'\x7b'`/`'\x7d'` are the brace characters). -/
def begin (inner : Inner) (p : Pos) (c : Char) :
    Except Error (Inner × Option (Pos × State)) :=
  if identStartChar c then .ok (inner, some (p, .Identifier))
  else if c = '$' then .ok (inner, some (p, .Parameter))
  else if digitChar c then .ok (inner, some (p, .Integer))
  else if c = '"' then .ok ({ inner with string := some (p, "") }, none)
  else
    match c with
    | '+' => .ok (inner, some (p, .Plus))
    | '-' => .ok (inner, some (p, .Hyphen))
    | '*' => .ok (inner, some (p, .Asterisk))
    | '/' => .ok (inner, some (p, .Slash))
    | '%' => .ok (inner, some (p, .Percent))
    | '^' => .ok (inner, some (p, .Circumflex))
    | '=' => .ok (inner, some (p, .Equal))
    | '!' => .ok (inner, some (p, .Exclamation))
    | '<' => .ok (inner, some (p, .Less))
    | '>' => .ok (inner, some (p, .Greater))
    | '&' => .ok (inner, some (p, .Ampersand))
    | '|' => .ok (inner, some (p, .Bar))
    | ':' => .ok (inner, some (p, .Colon))
    | ';' => .ok (inner, some (p, .Semicolon))
    | ',' => .ok (inner, some (p, .Comma))
    | '.' => .ok (inner, some (p, .Dot))
    | '?' => .ok (inner, some (p, .Question))
    | '(' => .ok (inner, some (p, .OpeningParenthesis))
    | ')' => .ok (inner, some (p, .ClosingParenthesis))
    | '[' => .ok (inner, some (p, .OpeningBracket))
    | ']' => .ok (inner, some (p, .ClosingBracket))
    | '\x7b' => .ok (inner, some (p, .OpeningBrace))
    | '\x7d' => .ok (inner, some (p, .ClosingBrace))
    | _ =>
        if isAsciiWhitespace c then .ok (inner, none)
        else .error (.UnexpectedCharacter p)

/-- The per-character loop of `Inner::run` (`lexer.rs` lines 53-233).
`prev` is the loop-local automaton state, `acc` the tokens pushed to the
queue so far (in push order), and the last argument the remaining
`char_indices` iterator; `iter.head?`/`iter.tail` render the source's
`iter.peek()`/`iter.next()` on the peekable iterator.  The first `Nat`
argument bounds the number of loop iterations: every iteration consumes at
least one character and the end-of-line check takes one more step, so
`run` passes the character count plus one and the fuel-exhausted arm is
unreachable (`runAux_fuel_irrelevant` below).  The result is the final
cross-line state, the pushed tokens, and the error if the run failed; the
Rust `&mut` state at the moment an error is returned is kept, matching the
source's early returns.

One rendering differs from the source only in shape: the source's
`if c == '"' { if let Some(..) = self.string.take() { .. } } else if let
Some(..) = &mut self.string { .. }` dispatch is regrouped by matching
`inner.string` first (the two orders decide the same function). -/
def runAux (n : Nat) (line : String) :
    Nat → Inner → Option (Pos × State) → List (Range × Token) → List (Nat × Char) →
    Inner × List (Range × Token) × Option Error
  | 0, inner, _, acc, _ => (inner, acc, none)
  | _ + 1, inner, prev, acc, [] =>
      -- end of the line: an open generic token means the line had no
      -- terminating character (`lexer.rs` lines 229-233)
      if prev.isSome then (inner, acc, some .NoLineFeedAtEOF)
      else (inner, acc, none)
  | fuel + 1, inner, prev, acc, (i, c) :: iter =>
      if inner.comment.isEmpty then
        match inner.string with
        | some (start, str) =>
            if c = '"' then
              -- end of the string literal; pushed on the next iteration
              runAux n line fuel { inner with string := none }
                (some (start, .String str)) acc iter
            else if c = '\\' then
              match iter.head? with
              | some (_, d) =>
                  runAux n line fuel
                    { inner with string := some (start, str.push (escape d)) }
                    prev acc iter.tail
              | none => (inner, acc, some (.NoCharacterAfterBackSlash { line := n, byte := i }))
            else
              runAux n line fuel { inner with string := some (start, str.push c) }
                prev acc iter
        | none =>
            match prev with
            | some (start, prevState) =>
                -- the `match (prev_state, c)` of the source; its two special
                -- arms `(Slash, '/')` and `(Slash, '*')` are tested first,
                -- the extending arms are `nextState`, and `none` falls to
                -- the finalizing default arm
                if prevState = .Slash && c = '/' then
                  -- the rest of this line is a line comment; the token
                  -- before the first `/` was already pushed
                  (inner, acc, none)
                else if prevState = .Slash && c = '*' then
                  -- a block comment starts here
                  runAux n line fuel { inner with comment := inner.comment ++ [start] }
                    none acc iter
                else
                  match nextState prevState c with
                  | some st =>
                      runAux n line fuel inner (some (start, st)) acc iter
                  | none =>
                      -- the token is cut off here
                      match finalize line start { line := n, byte := i } prevState with
                      | .error e => (inner, acc, some e)
                      | .ok token =>
                          match begin inner { line := n, byte := i } c with
                          | .ok (inner', prev') =>
                              runAux n line fuel inner' prev'
                                (acc ++ [({ start := start, stop := { line := n, byte := i } }, token)]) iter
                          | .error e =>
                              (inner, acc ++ [({ start := start, stop := { line := n, byte := i } }, token)], some e)
            | none =>
                match begin inner { line := n, byte := i } c with
                | .ok (inner', prev') => runAux n line fuel inner' prev' acc iter
                | .error e => (inner, acc, some e)
      else
        -- inside a block comment (`lexer.rs` lines 55-80)
        if c = '*' then
          match iter.head? with
          | some (_, d) =>
              if d = '/' then
                -- the comment closes one level; `pop` removes the last element
                runAux n line fuel { inner with comment := inner.comment.dropLast } prev acc iter.tail
              else runAux n line fuel inner prev acc iter
          | none => runAux n line fuel inner prev acc iter
        else if c = '/' then
          match iter.head? with
          | some (_, d) =>
              if d = '*' then
                -- a nested comment opens
                runAux n line fuel { inner with comment := inner.comment ++ [{ line := n, byte := i }] }
                  prev acc iter.tail
              else if d = '/' then
                -- a line comment inside the block comment: the rest of the
                -- line is dropped without closing the comment
                (inner, acc, none)
              else runAux n line fuel inner prev acc iter
          | none => runAux n line fuel inner prev acc iter
        else
          runAux n line fuel inner prev acc iter

/-- `Inner::run`: process one line (`line_num` is `n`), returning the updated
cross-line state, the tokens pushed to the queue, and the error if any.
The fuel `(charIndices line).length + 1` bounds the loop iterations. -/
def run (inner : Inner) (n : Nat) (line : String) :
    Inner × List (Range × Token) × Option Error :=
  runAux n line ((charIndices line).length + 1) inner none [] (charIndices line)

/-- The streaming driver, `struct Lexer` of `lexer.rs`.  The boxed
`BufRead` is modelled as the list of lines it will yield (each nonempty, as
`read_line` returns them); the `prompt` flag only echoes `"> "` to stdout and
has no effect on lexing, so it is omitted. -/
structure Lexer where
  reader : List String
  inner : Inner
  queue : List (Range × Token)
deriving DecidableEq, Repr

/-- `Lexer::read`: pull one line, lex it, and append it to the diagnostic
log.  Mirrors the source: the automaton is called with `log.len()` as the
line number, the raw line is pushed onto the log whether or not the
automaton succeeded, and on an exhausted reader the open comment (its last
element popped) or open string decides the error.  The result triple also
carries the mutated lexer and log, as the Rust `&mut` arguments do. -/
def read (lx : Lexer) (log : List String) :
    Except Error Bool × Lexer × List String :=
  match lx.reader with
  | line :: rest =>
      match run lx.inner log.length line with
      | (inner', toks, err) =>
          let lx' : Lexer := { reader := rest, inner := inner', queue := lx.queue ++ toks }
          let log' := log ++ [line]
          match err with
          | none => (.ok true, lx', log')
          | some e => (.error e, lx', log')
  | [] =>
      match lx.inner.comment.getLast? with
      | some pos =>
          (.error (.UnterminatedComment pos),
            { lx with inner := { lx.inner with comment := lx.inner.comment.dropLast } }, log)
      | none =>
          match lx.inner.string with
          | some (pos, _) =>
              (.error (.UnterminatedStringLiteral pos),
                { lx with inner := { lx.inner with string := none } }, log)
          | none => (.ok false, lx, log)

/-- The spec's mutual-exclusion property over the three open-construct
concerns: block-comment nesting, open string literal, open generic token. -/
def InnerExcl (inner : Inner) : Prop :=
  inner.comment = [] ∨ inner.string = none

/-- The inductive invariant of the per-character loop: an open block comment
excludes an open generic token and an open string, and an open string
excludes an open generic token. -/
def RunInv (inner : Inner) (prev : Option (Pos × State)) : Prop :=
  (inner.comment ≠ [] → prev = none ∧ inner.string = none)
  ∧ (inner.string.isSome → prev = none)

/-- Total UTF-8 byte length of a character list, as Rust's byte offsets
advance over it. -/
def utf8Len : List Char → Nat
  | [] => 0
  | c :: cs => c.utf8Size + utf8Len cs

/-- Texts matching `[A-Za-z_][A-Za-z0-9_$]*`: the identifier-class texts of
the claim, expressed with the automaton's own character classes. -/
def identClass (s : String) : Bool :=
  match s.toList with
  | [] => false
  | c :: cs => identStartChar c && cs.all identContChar

/-- The reserved keyword table of `lexer.rs` lines 150-158, pairing each
keyword text with its token; the vocabulary in which the claim's
"iff reserved keyword" is stated. -/
def keywordTable : List (String × Token) :=
  [("if", .KeywordIf), ("else", .KeywordElse), ("while", .KeywordWhile),
    ("for", .KeywordFor), ("let", .KeywordLet), ("def", .KeywordDef),
    ("break", .KeywordBreak), ("continue", .KeywordContinue),
    ("return", .KeywordReturn)]

/-- `Lexer::next`: pop the front token, reading lines while the queue is
empty; `none` is the ordinary end of input. -/
def next (lx : Lexer) (log : List String) :
    Except Error (Option (Range × Token)) × Lexer × List String :=
  match lx.queue with
  | token :: rest => (.ok (some token), { lx with queue := rest }, log)
  | [] =>
      match h : read lx log with
      | (.ok true, lx', log') => next lx' log'
      | (.ok false, lx', log') => (.ok none, lx', log')
      | (.error e, lx', log') => (.error e, lx', log')
termination_by lx.reader.length
decreasing_by
  unfold read at h
  cases hr : lx.reader with
  | nil =>
      rw [hr] at h
      rcases hc : lx.inner.comment.getLast? with _ | p <;> rw [hc] at h
      · rcases hs : lx.inner.string with _ | ps <;> rw [hs] at h <;> simp_all
      · simp_all
  | cons line rest =>
      rw [hr] at h
      dsimp only at h
      rcases hrun : run lx.inner log.length line with ⟨inner', toks, err⟩
      rw [hrun] at h
      rcases err with _ | e
      · simp only [Prod.mk.injEq, Except.ok.injEq] at h
        rw [← h.2.1]
        simp
      · simp_all

/-- `Lexer::ask`: apply the predicate to the front token without consuming
it, reading lines while the queue is empty; `false` once input is
exhausted. -/
def ask (lx : Lexer) (fnc : Token → Bool) (log : List String) :
    Except Error Bool × Lexer × List String :=
  match lx.queue with
  | (_, token) :: _ => (.ok (fnc token), lx, log)
  | [] =>
      match h : read lx log with
      | (.ok true, lx', log') => ask lx' fnc log'
      | (.ok false, lx', log') => (.ok false, lx', log')
      | (.error e, lx', log') => (.error e, lx', log')
termination_by lx.reader.length
decreasing_by
  unfold read at h
  cases hr : lx.reader with
  | nil =>
      rw [hr] at h
      rcases hc : lx.inner.comment.getLast? with _ | p <;> rw [hc] at h
      · rcases hs : lx.inner.string with _ | ps <;> rw [hs] at h <;> simp_all
      · simp_all
  | cons line rest =>
      rw [hr] at h
      dsimp only at h
      rcases hrun : run lx.inner log.length line with ⟨inner', toks, err⟩
      rw [hrun] at h
      rcases err with _ | e
      · simp only [Prod.mk.injEq, Except.ok.injEq] at h
        rw [← h.2.1]
        simp
      · simp_all

/-! ## Helper lemmas -/

/-- The fuel passed to `runAux` is irrelevant as long as it exceeds the
number of remaining characters: every loop iteration consumes at least one
character, so `run`'s fuel `(charIndices line).length + 1` makes the
fuel-exhausted arm unreachable. -/
theorem runAux_fuel_irrelevant (n : Nat) (line : String)
    (fuel : Nat) (inner : Inner) (prev : Option (Pos × State))
    (acc : List (Range × Token)) (l : List (Nat × Char)) :
    ∀ (fuel' : Nat), l.length < fuel → l.length < fuel' →
      runAux n line fuel inner prev acc l = runAux n line fuel' inner prev acc l := by
  induction fuel, inner, prev, acc, l using runAux.induct n line
  all_goals intro fuel' h1 h2
  all_goals try exact (Nat.not_lt_zero _ h1).elim
  all_goals rcases fuel' with _ | fuel'
  all_goals try exact (Nat.not_lt_zero _ h2).elim
  all_goals simp only [List.length_cons, List.length_nil, Nat.lt_add_one_iff_lt_or_eq,
    Nat.succ_lt_succ_iff] at h1 h2
  case case2 => simp only [runAux]
  case case3 => simp only [runAux]
  case case4 fuel inner prev acc i iter hce start str hs ih =>
      simp only [runAux, hce, hs, if_true, reduceIte]
      exact ih fuel' (by omega) (by omega)
  case case5 fuel inner prev acc i iter hce start str hs fst d hh hne ih =>
      have ht : iter.tail.length = iter.length - 1 := List.length_tail iter
      simp only [runAux, hce, hs, hh, if_neg hne, ite_true, ite_false]
      exact ih fuel' (by omega) (by omega)
  case case6 fuel inner prev acc i iter hce start str hs hh hne =>
      simp only [runAux, hce, hs, hh, if_neg hne, ite_true, ite_false]
  case case7 fuel inner prev acc i c iter hce start str hs hq hb ih =>
      simp only [runAux, hce, hs, if_neg hq, if_neg hb, ite_true, ite_false]
      exact ih fuel' (by omega) (by omega)
  case case8 fuel inner acc i c iter hce hs start prevState hslash =>
      simp only [runAux, hce, hs, hslash, ite_true, ite_false]
  case case9 fuel inner acc i c iter hce hs start prevState h1s h2s ih =>
      simp only [hs] at ih
      simp only [runAux, hce, hs, if_neg h1s, h2s, ite_true, ite_false]
      exact ih fuel' (by omega) (by omega)
  case case10 fuel inner acc i c iter hce hs start prevState h1s h2s st hns ih =>
      simp only [runAux, hce, hs, if_neg h1s, if_neg h2s, hns, ite_true, ite_false]
      exact ih fuel' (by omega) (by omega)
  case case11 fuel inner acc i c iter hce hs start prevState h1s h2s hns e hf =>
      simp only [runAux, hce, hs, if_neg h1s, if_neg h2s, hns, hf, ite_true, ite_false]
  case case12 fuel inner acc i c iter hce hs start prevState h1s h2s hns token hf inner' prev' hb ih =>
      simp only [runAux, hce, hs, if_neg h1s, if_neg h2s, hns, hf, hb, ite_true, ite_false]
      exact ih fuel' (by omega) (by omega)
  case case13 fuel inner acc i c iter hce hs start prevState h1s h2s hns token hf e hb =>
      simp only [runAux, hce, hs, if_neg h1s, if_neg h2s, hns, hf, hb, ite_true, ite_false]
  case case14 fuel inner acc i c iter hce hs inner' prev' hb ih =>
      simp only [runAux, hce, hs, hb, ite_true, ite_false]
      exact ih fuel' (by omega) (by omega)
  case case15 fuel inner acc i c iter hce hs e hb =>
      simp only [runAux, hce, hs, hb, ite_true, ite_false]
  case case20 =>
      simp only [runAux, reduceIte, ite_true, ite_false, Bool.false_eq_true, *]
  all_goals rename_i ih
  all_goals replace ih := ih fuel'
  all_goals simp only [runAux, reduceIte, ite_true, ite_false, Bool.false_eq_true, *]
  all_goals exact ih (by first | omega | (simp only [List.length_tail] at *; omega)) (by first | omega | (simp only [List.length_tail] at *; omega))

theorem innerExcl_of_runInv {inner : Inner} {prev : Option (Pos × State)}
    (hinv : RunInv inner prev) : InnerExcl inner := by
  by_cases hc : inner.comment = []
  · exact Or.inl hc
  · exact Or.inr (hinv.1 hc).2

/-- `Inner::begin` either keeps the state unchanged (possibly opening a
generic token) or opens a string literal with no generic token open. -/
theorem begin_shape (inner : Inner) (p : Pos) (c : Char)
    (inner' : Inner) (prev' : Option (Pos × State))
    (h : begin inner p c = .ok (inner', prev')) :
    inner' = inner ∨ (inner' = { inner with string := some (p, "") } ∧ prev' = none) := by
  unfold begin at h
  split_ifs at h with h1 h2 h3 h4 h5
  all_goals try exact Or.inr (by simp only [Except.ok.injEq, Prod.mk.injEq] at h; exact ⟨h.1.symm, h.2.symm⟩)
  all_goals try exact Or.inl (by simp only [Except.ok.injEq, Prod.mk.injEq] at h; exact h.1.symm)
  all_goals split at h
  all_goals try exact Or.inl (by simp only [Except.ok.injEq, Prod.mk.injEq] at h; exact h.1.symm)
  all_goals exact absurd h (by simp)

/-- `Inner::begin` never touches the comment stack. -/
theorem begin_comment (inner : Inner) (p : Pos) (c : Char)
    (inner' : Inner) (prev' : Option (Pos × State))
    (h : begin inner p c = .ok (inner', prev')) :
    inner'.comment = inner.comment := by
  rcases begin_shape inner p c inner' prev' h with rfl | ⟨rfl, _⟩ <;> rfl

/-- The loop invariant `RunInv` is preserved to the final cross-line state:
from any mid-line configuration satisfying it, the state returned for the
next line satisfies the mutual exclusion. -/
theorem runAux_preserves_excl (n : Nat) (line : String)
    (fuel : Nat) (inner : Inner) (prev : Option (Pos × State))
    (acc : List (Range × Token)) (l : List (Nat × Char)) :
    RunInv inner prev → InnerExcl (runAux n line fuel inner prev acc l).1 := by
  induction fuel, inner, prev, acc, l using runAux.induct n line
  all_goals intro hinv
  case case1 => exact innerExcl_of_runInv hinv
  case case2 prevn inner prev acc hp =>
      simp only [runAux, hp, ite_true]
      exact innerExcl_of_runInv hinv
  case case3 prevn inner prev acc hp =>
      simp only [runAux, hp, ite_false, Bool.false_eq_true]
      exact innerExcl_of_runInv hinv
  case case4 fuel inner prev acc i iter hce start str hs ih =>
      have hc0 : inner.comment = [] := by simpa using hce
      simp only [runAux, hce, hs, ite_true, reduceIte]
      exact ih ⟨fun hcc => absurd hc0 hcc, fun hss => by simp at hss⟩
  case case5 fuel inner prev acc i iter hce start str hs fst d hh hne ih =>
      have hp0 : prev = none := hinv.2 (by simp [hs])
      simp only [runAux, hce, hs, hh, if_neg hne, ite_true, ite_false]
      exact ih ⟨fun hcc => ⟨hp0, absurd ((hinv.1 hcc).2) (by simp [hs])⟩, fun _ => hp0⟩
  case case6 fuel inner prev acc i iter hce start str hs hh hne =>
      simp only [runAux, hce, hs, hh, if_neg hne, ite_true, ite_false]
      exact innerExcl_of_runInv hinv
  case case7 fuel inner prev acc i c iter hce start str hs hq hb ih =>
      have hp0 : prev = none := hinv.2 (by simp [hs])
      simp only [runAux, hce, hs, if_neg hq, if_neg hb]
      exact ih ⟨fun hcc => ⟨hp0, absurd ((hinv.1 hcc).2) (by simp [hs])⟩, fun _ => hp0⟩
  case case8 fuel inner acc i c iter hce hs start prevState hslash =>
      simp only [runAux, hce, hs, hslash, ite_true]
      exact innerExcl_of_runInv hinv
  case case9 fuel inner acc i c iter hce hs start prevState h1s h2s ih =>
      simp only [hs] at ih
      simp only [runAux, hce, hs, if_neg h1s, h2s, ite_true, ite_false]
      exact ih ⟨fun _ => ⟨rfl, rfl⟩, fun hss => by simp at hss⟩
  case case10 fuel inner acc i c iter hce hs start prevState h1s h2s st hns ih =>
      have hc0 : inner.comment = [] := by simpa using hce
      simp only [runAux, hce, hs, if_neg h1s, if_neg h2s, hns]
      exact ih ⟨fun hcc => absurd hc0 hcc, fun hss => by rw [hs] at hss; simp at hss⟩
  case case11 fuel inner acc i c iter hce hs start prevState h1s h2s hns e hf =>
      simp only [runAux, hce, hs, if_neg h1s, if_neg h2s, hns, hf]
      exact innerExcl_of_runInv hinv
  case case12 fuel inner acc i c iter hce hs start prevState h1s h2s hns token hf inner' prev' hb ih =>
      have hc0 : inner.comment = [] := by simpa using hce
      have hcc' : inner'.comment = [] := by rw [begin_comment inner _ c inner' prev' hb, hc0]
      simp only [runAux, hce, hs, if_neg h1s, if_neg h2s, hns, hf, hb]
      refine ih ⟨fun hcc => absurd hcc' hcc, fun hss => ?_⟩
      rcases begin_shape inner _ c inner' prev' hb with rfl | ⟨_, rfl⟩
      · rw [hs] at hss; simp at hss
      · rfl
  case case13 fuel inner acc i c iter hce hs start prevState h1s h2s hns token hf e hb =>
      simp only [runAux, hce, hs, if_neg h1s, if_neg h2s, hns, hf, hb]
      exact innerExcl_of_runInv hinv
  case case14 fuel inner acc i c iter hce hs inner' prev' hb ih =>
      have hc0 : inner.comment = [] := by simpa using hce
      have hcc' : inner'.comment = [] := by rw [begin_comment inner _ c inner' prev' hb, hc0]
      simp only [runAux, hce, hs, hb]
      refine ih ⟨fun hcc => absurd hcc' hcc, fun hss => ?_⟩
      rcases begin_shape inner _ c inner' prev' hb with rfl | ⟨_, rfl⟩
      · rw [hs] at hss; simp at hss
      · rfl
  case case15 fuel inner acc i c iter hce hs e hb =>
      simp only [runAux, hce, hs, hb]
      exact innerExcl_of_runInv hinv
  case case16 =>
      rename_i hce fst hh ih
      simp only [runAux, hce, hh, reduceIte, ite_true, ite_false, Bool.false_eq_true]
      exact ih ⟨fun _ => hinv.1 (fun heq => hce (by simp [heq])), hinv.2⟩
  case case17 =>
      rename_i hce fst d hh hd ih
      simp only [runAux, hce, hh, if_neg hd, reduceIte, ite_true, ite_false, Bool.false_eq_true]
      exact ih hinv
  case case18 =>
      rename_i hce hh ih
      simp only [runAux, hce, hh, reduceIte, ite_true, ite_false, Bool.false_eq_true]
      exact ih hinv
  case case19 =>
      rename_i hce fst hsl hh ih
      simp only [runAux, hce, hh, hsl, reduceIte, ite_true, ite_false, Bool.false_eq_true]
      exact ih ⟨fun _ => hinv.1 (fun heq => hce (by simp [heq])), hinv.2⟩
  case case20 =>
      rename_i hce fst hsl hh hsl2
      simp only [runAux, hce, hh, hsl, reduceIte, ite_true, ite_false, Bool.false_eq_true]
      exact innerExcl_of_runInv hinv
  case case21 =>
      rename_i hce fst d hh hd1 hd2 hsl ih
      simp only [runAux, hce, hh, hsl, if_neg hd1, if_neg hd2, reduceIte, ite_true, ite_false,
        Bool.false_eq_true]
      exact ih hinv
  case case22 =>
      rename_i hce hh hsl ih
      simp only [runAux, hce, hh, hsl, reduceIte, ite_true, ite_false, Bool.false_eq_true]
      exact ih hinv
  case case23 =>
      rename_i hce hc1 hc2 ih
      simp only [runAux, hce, if_neg hc1, if_neg hc2, ite_true, ite_false, Bool.false_eq_true]
      exact ih hinv

/-- C10: at most one of the three concerns — nonempty block-comment stack,
open string literal, open generic token — is active at any point of the
per-character loop (quantified over every mid-line configuration satisfying
the loop invariant) and between line-processing steps; opening a block
comment (`(Slash, '*')`) clears the open generic token, opening a string
literal (`begin` at `"`) leaves no generic token open, and in both cases the
remaining concerns stay inactive. -/
theorem open_construct_mutual_exclusion :
    (∀ (n : Nat) (line : String) (fuel : Nat) (inner : Inner)
        (prev : Option (Pos × State)) (acc : List (Range × Token))
        (l : List (Nat × Char)), RunInv inner prev →
        InnerExcl (runAux n line fuel inner prev acc l).1)
    ∧ (∀ (inner : Inner) (n : Nat) (line : String), InnerExcl inner →
        InnerExcl (run inner n line).1)
    ∧ (∀ (n fuel : Nat) (line : String) (inner : Inner) (start : Pos)
        (acc : List (Range × Token)) (i : Nat) (iter : List (Nat × Char)),
        inner.comment = [] → inner.string = none →
        runAux n line (fuel + 1) inner (some (start, .Slash)) acc ((i, '*') :: iter)
          = runAux n line fuel { inner with comment := inner.comment ++ [start] }
              none acc iter)
    ∧ (∀ (inner : Inner) (p : Pos),
        begin inner p '"' = .ok ({ inner with string := some (p, "") }, none)) := by
  refine ⟨fun n line fuel inner prev acc l hinv =>
      runAux_preserves_excl n line fuel inner prev acc l hinv, ?_, ?_, ?_⟩
  · intro inner n line hex
    exact runAux_preserves_excl _ _ _ _ _ _ _
      ⟨fun hc => ⟨rfl, hex.resolve_left hc⟩, fun _ => rfl⟩
  · intro n fuel line inner start acc i iter hc hs
    obtain ⟨comment, string⟩ := inner
    simp only at hc hs
    subst hc
    subst hs
    rfl
  · intro inner p
    rfl

/-- Witness for C10: a line that opens a block comment containing a quote
leaves the comment stack nonempty and no string open. -/
theorem open_construct_mutual_exclusion_witness :
    InnerExcl Inner.new ∧ InnerExcl (run Inner.new 0 "/* \"unclosed\n").1 :=
  ⟨Or.inl rfl,
    open_construct_mutual_exclusion.2.1 Inner.new 0 "/* \"unclosed\n" (Or.inl rfl)⟩

/-! ## Identifier tokenization machinery -/

theorem toList_push (s : String) (c : Char) : (s.push c).toList = s.toList ++ [c] :=
  rfl

theorem mk_toList (s : String) : String.mk s.toList = s :=
  rfl

theorem charIndicesAux_length (cs : List Char) : ∀ i, (charIndicesAux i cs).length = cs.length := by
  induction cs with
  | nil => intro i; rfl
  | cons c cs ih => intro i; simp [charIndicesAux, ih]

theorem charIndicesAux_append (cs ds : List Char) :
    ∀ i, charIndicesAux i (cs ++ ds) = charIndicesAux i cs ++ charIndicesAux (i + utf8Len cs) ds := by
  induction cs with
  | nil => intro i; simp [charIndicesAux, utf8Len]
  | cons c cs ih =>
      intro i
      simp only [List.cons_append, charIndicesAux, utf8Len, List.cons.injEq, true_and,
        List.append_eq]
      rw [ih (i + c.utf8Size), Nat.add_assoc]

theorem charIndicesAux_mem_snd (cs : List Char) :
    ∀ i x, x ∈ charIndicesAux i cs → x.2 ∈ cs := by
  induction cs with
  | nil => intro i x hx; simp [charIndicesAux] at hx
  | cons c cs ih =>
      intro i x hx
      rcases (by simpa [charIndicesAux] using hx : x = (i, c) ∨ x ∈ charIndicesAux (i + c.utf8Size) cs) with rfl | hx'
      · simp
      · exact List.mem_cons_of_mem _ (ih _ x hx')

theorem charIndicesAux_filter_inside (cs : List Char) :
    ∀ (i start stop : Nat), start ≤ i → i + utf8Len cs ≤ stop →
    (charIndicesAux i cs).filterMap
        (fun ic => if start ≤ ic.1 && ic.1 < stop then some ic.2 else none) = cs := by
  induction cs with
  | nil => intros; rfl
  | cons c cs ih =>
      intro i start stop h1 h2
      have hpos : 0 < c.utf8Size := Char.utf8Size_pos c
      simp only [utf8Len] at h2
      have hin : (start ≤ i && i < stop) = true := by
        simp only [Bool.and_eq_true, decide_eq_true_eq]
        omega
      simp only [charIndicesAux, List.filterMap_cons, hin, ite_true, List.cons.injEq, true_and]
      exact ih (i + c.utf8Size) start stop (by omega) (by omega)

theorem charIndicesAux_filter_outside (ds : List Char) :
    ∀ (j start stop : Nat), stop ≤ j →
    (charIndicesAux j ds).filterMap
        (fun ic => if start ≤ ic.1 && ic.1 < stop then some ic.2 else none) = [] := by
  induction ds with
  | nil => intros; rfl
  | cons d ds ih =>
      intro j start stop h
      have hpos : 0 < d.utf8Size := Char.utf8Size_pos d
      have hout : (start ≤ j && j < stop) = false := by
        simp only [Bool.and_eq_false_iff, decide_eq_false_iff_not]
        right
        omega
      simp only [charIndicesAux, List.filterMap_cons, hout, Bool.false_eq_true, ite_false]
      exact ih (j + d.utf8Size) start stop (by omega)

/-- The byte slice `&line[0..stop]` recovers exactly the prefix of `line`
whose UTF-8 length is `stop`. -/
theorem sliceBytes_of_toList (line : String) (cs ds : List Char)
    (h : line.toList = cs ++ ds) :
    sliceBytes line 0 (utf8Len cs) = String.mk cs := by
  unfold sliceBytes charIndices
  rw [h, charIndicesAux_append, List.filterMap_append]
  rw [charIndicesAux_filter_inside cs 0 0 (utf8Len cs) le_rfl (by omega)]
  rw [charIndicesAux_filter_outside ds (0 + utf8Len cs) 0 (utf8Len cs) (by omega)]
  simp

/-- Starting a token: `begin` on an identifier-start character opens the
`Identifier` state at that position. -/
theorem runAux_begin_identStart (n : Nat) (line : String) (fuel i : Nat) (c : Char)
    (acc : List (Range × Token)) (rest : List (Nat × Char))
    (hc : identStartChar c = true) :
    runAux n line (fuel + 1) Inner.new none acc ((i, c) :: rest)
      = runAux n line fuel Inner.new (some ({ line := n, byte := i }, .Identifier)) acc rest := by
  simp [runAux, Inner.new, begin, hc]

/-- Extending a token: identifier-continuation characters keep the
`Identifier` state, consuming one fuel per character. -/
theorem runAux_ident_cont (n : Nat) (line : String) (st : Pos) :
    ∀ (ics tail : List (Nat × Char)) (fuel : Nat) (acc : List (Range × Token)),
      (∀ x ∈ ics, identContChar x.2 = true) →
      runAux n line (ics.length + fuel) Inner.new (some (st, .Identifier)) acc (ics ++ tail)
        = runAux n line fuel Inner.new (some (st, .Identifier)) acc tail := by
  intro ics
  induction ics with
  | nil =>
      intro tail fuel acc hall
      simp
  | cons x ics ih =>
      intro tail fuel acc hall
      obtain ⟨i, c⟩ := x
      have hc : identContChar c = true := hall (i, c) (by simp)
      have harith : (((i, c) :: ics).length + fuel) = (ics.length + fuel) + 1 := by
        simp
        omega
      rw [harith]
      have hns : nextState .Identifier c = some .Identifier := by simp [nextState, hc]
      simp only [List.cons_append]
      rw [show runAux n line (ics.length + fuel + 1) Inner.new (some (st, .Identifier)) acc
          ((i, c) :: (ics ++ tail)) = runAux n line (ics.length + fuel) Inner.new
          (some (st, .Identifier)) acc (ics ++ tail) by simp [runAux, Inner.new, hns]]
      exact ih tail fuel acc (fun y hy => hall y (List.mem_cons_of_mem _ hy))

theorem runAux_nil_toks (n : Nat) (line : String) (fuel : Nat) (inner : Inner)
    (prev : Option (Pos × State)) (acc : List (Range × Token)) :
    (runAux n line fuel inner prev acc []).2.1 = acc := by
  cases fuel <;> cases prev <;> rfl

/-- C1: an identifier-class text finalized by the automaton produces the
token of `classifyIdentifier`: the corresponding keyword token exactly for
the reserved keywords of the table, and a generic identifier token carrying
exactly the text otherwise — never an identifier token for a keyword. -/
theorem ident_keyword_classification (s : String) (c : Char) (n : Nat)
    (hs : identClass s = true) (hc : identContChar c = false) :
    (run Inner.new n (s.push c)).2.1.head?
      = some ({ start := { line := n, byte := 0 },
                stop := { line := n, byte := utf8Len s.toList } },
          classifyIdentifier s)
    ∧ (∀ t, (s, t) ∈ keywordTable → classifyIdentifier s = t)
    ∧ (s ∉ keywordTable.map Prod.fst → classifyIdentifier s = .Identifier s)
    ∧ (∀ t, (s, t) ∈ keywordTable → ∀ u, t ≠ .Identifier u) := by
  refine ⟨?_, ?_, ?_, ?_⟩
  · rcases hlist : s.toList with _ | ⟨c0, cs⟩
    · rw [identClass, hlist] at hs
      simp at hs
    · have hsc : identStartChar c0 = true := by
        have h := hs
        rw [identClass, hlist] at h
        simp at h
        exact h.1
      have hall : ∀ x ∈ cs, identContChar x = true := by
        have h := hs
        rw [identClass, hlist] at h
        simp [List.all_eq_true] at h
        exact h.2
      have hpush : (s.push c).toList = c0 :: (cs ++ [c]) := by
        rw [toList_push, hlist]
        rfl
      have hk : c0.utf8Size + utf8Len cs = utf8Len s.toList := by
        rw [hlist]
        rfl
      have hslice : sliceBytes (s.push c) 0 (utf8Len s.toList) = s := by
        rw [sliceBytes_of_toList (s.push c) s.toList [c] (by rw [toList_push]), mk_toList]
      have hCI : charIndices (s.push c)
          = (0, c0) :: (charIndicesAux c0.utf8Size cs
              ++ [(c0.utf8Size + utf8Len cs, c)]) := by
        unfold charIndices
        rw [hpush]
        simp [charIndicesAux, charIndicesAux_append]
      unfold run
      rw [hCI]
      have hlen : ((0, c0) :: (charIndicesAux c0.utf8Size cs
            ++ [(c0.utf8Size + utf8Len cs, c)])).length + 1
          = ((charIndicesAux c0.utf8Size cs).length + 2) + 1 := by
        simp
      rw [hlen]
      rw [runAux_begin_identStart n (s.push c) _ 0 c0 [] _ hsc]
      rw [runAux_ident_cont n (s.push c) { line := n, byte := 0 }
        (charIndicesAux c0.utf8Size cs) [(c0.utf8Size + utf8Len cs, c)] 2 []
        (fun x hx => hall x.2 (charIndicesAux_mem_snd cs c0.utf8Size x hx))]
      rw [hk]
      have hns : nextState .Identifier c = none := by
        simp [nextState, hc]
      simp only [runAux, Inner.new, hns, List.isEmpty_nil, ite_true, finalize]
      have hdata : s.data = c0 :: cs := hlist
      rw [hlist] at hslice
      rcases hbeg : begin (Inner.mk [] none) { line := n, byte := utf8Len s.toList } c with e | ⟨inner', prev'⟩
      · simp [hbeg, hslice, hdata]
      · cases prev' <;> simp [hbeg, hslice, hdata, runAux_nil_toks]
  · intro t ht
    simp only [keywordTable, List.mem_cons, List.not_mem_nil, or_false, Prod.mk.injEq] at ht
    rcases ht with h | h | h | h | h | h | h | h | h
    all_goals obtain ⟨rfl, rfl⟩ := h
    all_goals decide
  · intro hnot
    unfold classifyIdentifier
    split_ifs with h1 h2 h3 h4 h5 h6 h7 h8 h9
    all_goals try rfl
    all_goals exact absurd (by simp [keywordTable, *]) hnot
  · intro t ht u
    simp only [keywordTable, List.mem_cons, List.not_mem_nil, or_false, Prod.mk.injEq] at ht
    rcases ht with ⟨_, rfl⟩ | ⟨_, rfl⟩ | ⟨_, rfl⟩ | ⟨_, rfl⟩ | ⟨_, rfl⟩ | ⟨_, rfl⟩ | ⟨_, rfl⟩ | ⟨_, rfl⟩ | ⟨_, rfl⟩ <;> simp

/-- Witness for C1: `while` followed by a space is the keyword token. -/
theorem ident_keyword_classification_witness :
    identClass "while" = true ∧ identContChar ' ' = false
    ∧ (run Inner.new 0 ("while".push ' ')).2.1.head?
        = some ({ start := { line := 0, byte := 0 },
                  stop := { line := 0, byte := utf8Len "while".toList } },
            classifyIdentifier "while") :=
  ⟨by decide, by decide,
    (ident_keyword_classification "while" ' ' 0 (by decide) (by decide)).1⟩

/-! ## End-of-line handling (C4) -/

theorem runAux_nil_none (n : Nat) (line : String) (fuel : Nat) (inner : Inner)
    (acc : List (Range × Token)) :
    (runAux n line fuel inner none acc []).2.2 = none := by
  cases fuel <;> rfl

theorem nextState_newline (st : State) : nextState st '\n' = none := by
  cases st <;> rfl

theorem begin_newline (inner : Inner) (p : Pos) :
    begin inner p '\n' = .ok (inner, none) :=
  rfl

theorem finalize_error_ne (line : String) (start p : Pos) (st : State) (e : Error)
    (h : finalize line start p st = .error e) : e ≠ .NoLineFeedAtEOF := by
  cases st <;> simp [finalize] at h
  all_goals subst h
  all_goals simp

theorem exLast_of_cons {i : Nat} {c : Char} {iter : List (Nat × Char)}
    (h : ∃ k, ((i, c) :: iter).getLast? = some (k, '\n')) (hc : c ≠ '\n') :
    ∃ k, iter.getLast? = some (k, '\n') := by
  rcases h with ⟨k, hk⟩
  rcases iter with _ | ⟨y, ys⟩
  · simp at hk
    exact absurd hk.2 hc
  · exact ⟨k, by simpa [List.getLast?_cons_cons] using hk⟩

theorem exLast_of_cons_ne {i : Nat} {c : Char} {iter : List (Nat × Char)}
    (h : ∃ k, ((i, c) :: iter).getLast? = some (k, '\n')) (hne : iter ≠ []) :
    ∃ k, iter.getLast? = some (k, '\n') := by
  rcases h with ⟨k, hk⟩
  rcases iter with _ | ⟨y, ys⟩
  · exact absurd rfl hne
  · exact ⟨k, by simpa [List.getLast?_cons_cons] using hk⟩

theorem exLast_singleton {i : Nat} {c : Char}
    (h : ∃ k, ([(i, c)] : List (Nat × Char)).getLast? = some (k, '\n')) : c = '\n' := by
  rcases h with ⟨k, hk⟩
  simp at hk
  exact hk.2

theorem head?_eq_cons {iter : List (Nat × Char)} {fst : Nat} {d : Char}
    (hh : iter.head? = some (fst, d)) : iter = (fst, d) :: iter.tail := by
  rcases iter with _ | ⟨y, ys⟩
  · simp at hh
  · simp at hh
    rw [hh]
    rfl

/-- `Inner::begin` can only fail with `UnexpectedCharacter` at the current
position. -/
theorem begin_error_shape (inner : Inner) (p : Pos) (c : Char) (e : Error)
    (h : begin inner p c = .error e) : e = .UnexpectedCharacter p := by
  unfold begin at h
  split_ifs at h
  all_goals split at h
  all_goals simp at h
  all_goals exact h.symm

/-- A line whose character list ends in the terminator `'\n'` never fails
with `NoLineFeedAtEOF`: the terminator is whitespace and closes any open
token before the end of the list is reached. -/
theorem runAux_terminator (n : Nat) (line : String)
    (fuel : Nat) (inner : Inner) (prev : Option (Pos × State))
    (acc : List (Range × Token)) (l : List (Nat × Char)) :
    RunInv inner prev → (∃ k, l.getLast? = some (k, '\n')) →
    (runAux n line fuel inner prev acc l).2.2 ≠ some .NoLineFeedAtEOF := by
  induction fuel, inner, prev, acc, l using runAux.induct n line
  all_goals intro hinv hlast
  case case1 => simp [runAux]
  case case2 prevn inner prev acc hp =>
      rcases hlast with ⟨k, hk⟩
      simp at hk
  case case3 prevn inner prev acc hp =>
      rcases hlast with ⟨k, hk⟩
      simp at hk
  case case4 fuel inner prev acc i iter hce start str hs ih =>
      have hc0 : inner.comment = [] := by simpa using hce
      simp only [runAux, hce, hs, ite_true, reduceIte]
      exact ih ⟨fun hcc => absurd hc0 hcc, fun hss => by simp at hss⟩
        (exLast_of_cons hlast (by decide))
  case case5 fuel inner prev acc i iter hce start str hs fst d hh hne ih =>
      have hp0 : prev = none := hinv.2 (by simp [hs])
      have hiter : iter = (fst, d) :: iter.tail := head?_eq_cons hh
      have hl2 : ∃ k, iter.getLast? = some (k, '\n') := exLast_of_cons hlast (by decide)
      simp only [runAux, hce, hs, hh, if_neg hne, ite_true, ite_false]
      rcases htl : iter.tail with _ | ⟨y, ys⟩
      · rw [hp0]
        simp [runAux_nil_none]
      · rw [← htl]
        refine ih ⟨fun hcc => ⟨hp0, absurd ((hinv.1 hcc).2) (by simp [hs])⟩, fun _ => hp0⟩ ?_
        rw [hiter] at hl2
        exact exLast_of_cons_ne hl2 (by rw [htl]; simp)
  case case6 fuel inner prev acc i iter hce start str hs hh hne =>
      simp only [runAux, hce, hs, hh, if_neg hne, ite_true, ite_false]
      simp
  case case7 fuel inner prev acc i c iter hce start str hs hq hb ih =>
      have hp0 : prev = none := hinv.2 (by simp [hs])
      simp only [runAux, hce, hs, if_neg hq, if_neg hb]
      rcases iter with _ | ⟨y, ys⟩
      · rw [hp0]
        simp [runAux_nil_none]
      · exact ih ⟨fun hcc => ⟨hp0, absurd ((hinv.1 hcc).2) (by simp [hs])⟩, fun _ => hp0⟩
          (exLast_of_cons_ne hlast (by simp))
  case case8 fuel inner acc i c iter hce hs start prevState hslash =>
      simp only [runAux, hce, hs, hslash, ite_true]
      simp
  case case9 fuel inner acc i c iter hce hs start prevState h1s h2s ih =>
      simp only [hs] at ih
      simp only [runAux, hce, hs, if_neg h1s, h2s, ite_true, ite_false]
      have hcstar : c = '*' := by
        simp only [Bool.and_eq_true, decide_eq_true_eq] at h2s
        exact h2s.2
      exact ih ⟨fun _ => ⟨rfl, rfl⟩, fun hss => by simp at hss⟩
        (exLast_of_cons hlast (by rw [hcstar]; decide))
  case case10 fuel inner acc i c iter hce hs start prevState h1s h2s st hns ih =>
      have hc0 : inner.comment = [] := by simpa using hce
      simp only [runAux, hce, hs, if_neg h1s, if_neg h2s, hns]
      rcases iter with _ | ⟨y, ys⟩
      · have hcnl : c = '\n' := exLast_singleton hlast
        rw [hcnl, nextState_newline] at hns
        exact absurd hns (by simp)
      · exact ih ⟨fun hcc => absurd hc0 hcc, fun hss => by rw [hs] at hss; simp at hss⟩
          (exLast_of_cons_ne hlast (by simp))
  case case11 fuel inner acc i c iter hce hs start prevState h1s h2s hns e hf =>
      simp only [runAux, hce, hs, if_neg h1s, if_neg h2s, hns, hf]
      simpa using finalize_error_ne line start { line := n, byte := i } prevState e hf
  case case12 fuel inner acc i c iter hce hs start prevState h1s h2s hns token hf inner' prev' hb ih =>
      have hc0 : inner.comment = [] := by simpa using hce
      have hcc' : inner'.comment = [] := by rw [begin_comment inner _ c inner' prev' hb, hc0]
      have hinv' : RunInv inner' prev' := by
        refine ⟨fun hcc => absurd hcc' hcc, fun hss => ?_⟩
        rcases begin_shape inner _ c inner' prev' hb with rfl | ⟨_, rfl⟩
        · rw [hs] at hss
          simp at hss
        · rfl
      simp only [runAux, hce, hs, if_neg h1s, if_neg h2s, hns, hf, hb]
      rcases iter with _ | ⟨y, ys⟩
      · have hcnl : c = '\n' := exLast_singleton hlast
        rw [hcnl, begin_newline] at hb
        simp only [Except.ok.injEq, Prod.mk.injEq] at hb
        rw [← hb.2]
        simp [runAux_nil_none]
      · exact ih hinv' (exLast_of_cons_ne hlast (by simp))
  case case13 fuel inner acc i c iter hce hs start prevState h1s h2s hns token hf e hb =>
      simp only [runAux, hce, hs, if_neg h1s, if_neg h2s, hns, hf, hb]
      have he : e = .UnexpectedCharacter { line := n, byte := i } :=
        begin_error_shape inner { line := n, byte := i } c e hb
      rw [he]
      simp
  case case14 fuel inner acc i c iter hce hs inner' prev' hb ih =>
      have hc0 : inner.comment = [] := by simpa using hce
      have hcc' : inner'.comment = [] := by rw [begin_comment inner _ c inner' prev' hb, hc0]
      have hinv' : RunInv inner' prev' := by
        refine ⟨fun hcc => absurd hcc' hcc, fun hss => ?_⟩
        rcases begin_shape inner _ c inner' prev' hb with rfl | ⟨_, rfl⟩
        · rw [hs] at hss
          simp at hss
        · rfl
      simp only [runAux, hce, hs, hb]
      rcases iter with _ | ⟨y, ys⟩
      · have hcnl : c = '\n' := exLast_singleton hlast
        rw [hcnl, begin_newline] at hb
        simp only [Except.ok.injEq, Prod.mk.injEq] at hb
        rw [← hb.2]
        simp [runAux_nil_none]
      · exact ih hinv' (exLast_of_cons_ne hlast (by simp))
  case case15 fuel inner acc i c iter hce hs e hb =>
      simp only [runAux, hce, hs, hb]
      have he : e = .UnexpectedCharacter { line := n, byte := i } :=
        begin_error_shape inner { line := n, byte := i } c e hb
      rw [he]
      simp
  case case16 =>
      rename_i fuel inner prev acc i iter hce fst hh ih
      have hcne : inner.comment ≠ [] := fun heq => hce (by simp [heq])
      have hp0 : prev = none := (hinv.1 hcne).1
      have hiter : iter = (fst, '/') :: iter.tail := head?_eq_cons hh
      have hl2 : ∃ k, iter.getLast? = some (k, '\n') := exLast_of_cons hlast (by decide)
      simp only [runAux, hce, hh, reduceIte, ite_true, ite_false, Bool.false_eq_true]
      rcases htl : iter.tail with _ | ⟨y, ys⟩
      · rw [hp0]
        simp [runAux_nil_none]
      · rw [← htl]
        refine ih ⟨fun _ => hinv.1 hcne, hinv.2⟩ ?_
        rw [hiter] at hl2
        exact exLast_of_cons_ne hl2 (by rw [htl]; simp)
  case case17 =>
      rename_i fuel inner prev acc i iter hce fst d hh hd ih
      simp only [runAux, hce, hh, if_neg hd, reduceIte, ite_true, ite_false, Bool.false_eq_true]
      have hne : iter ≠ [] := by
        rw [head?_eq_cons hh]
        simp
      exact ih hinv (exLast_of_cons_ne hlast hne)
  case case18 =>
      rename_i fuel inner prev acc i iter hce hh ih
      have hcne : inner.comment ≠ [] := fun heq => hce (by simp [heq])
      have hp0 : prev = none := (hinv.1 hcne).1
      have hnil : iter = [] := by
        rcases iter with _ | ⟨y, ys⟩
        · rfl
        · simp at hh
      simp only [runAux, hce, hh, reduceIte, ite_true, ite_false, Bool.false_eq_true]
      rw [hnil, hp0]
      simp [runAux_nil_none]
  case case19 =>
      rename_i fuel inner prev acc i iter hce fst hsl hh ih
      have hcne : inner.comment ≠ [] := fun heq => hce (by simp [heq])
      have hp0 : prev = none := (hinv.1 hcne).1
      have hiter : iter = (fst, '*') :: iter.tail := head?_eq_cons hh
      have hl2 : ∃ k, iter.getLast? = some (k, '\n') := exLast_of_cons hlast (by decide)
      simp only [runAux, hce, hh, hsl, reduceIte, ite_true, ite_false, Bool.false_eq_true]
      rcases htl : iter.tail with _ | ⟨y, ys⟩
      · rw [hp0]
        simp [runAux_nil_none]
      · rw [← htl]
        refine ih ⟨fun _ => hinv.1 hcne, hinv.2⟩ ?_
        rw [hiter] at hl2
        exact exLast_of_cons_ne hl2 (by rw [htl]; simp)
  case case20 =>
      rename_i fuel inner prev acc i iter hce fst hsl hh hsl2
      simp only [runAux, hce, hh, hsl, reduceIte, ite_true, ite_false, Bool.false_eq_true]
      simp
  case case21 =>
      rename_i fuel inner prev acc i iter hce fst d hh hd1 hd2 hsl ih
      simp only [runAux, hce, hh, hsl, if_neg hd1, if_neg hd2, reduceIte, ite_true, ite_false,
        Bool.false_eq_true]
      have hne : iter ≠ [] := by
        rw [head?_eq_cons hh]
        simp
      exact ih hinv (exLast_of_cons_ne hlast hne)
  case case22 =>
      rename_i fuel inner prev acc i iter hce hh hsl ih
      have hcne : inner.comment ≠ [] := fun heq => hce (by simp [heq])
      have hp0 : prev = none := (hinv.1 hcne).1
      have hnil : iter = [] := by
        rcases iter with _ | ⟨y, ys⟩
        · rfl
        · simp at hh
      simp only [runAux, hce, hh, hsl, reduceIte, ite_true, ite_false, Bool.false_eq_true]
      rw [hnil, hp0]
      simp [runAux_nil_none]
  case case23 =>
      rename_i fuel inner prev acc i c iter hce hc1 hc2 ih
      have hcne : inner.comment ≠ [] := fun heq => hce (by simp [heq])
      have hp0 : prev = none := (hinv.1 hcne).1
      simp only [runAux, hce, if_neg hc1, if_neg hc2, ite_true, ite_false, Bool.false_eq_true]
      rcases iter with _ | ⟨y, ys⟩
      · rw [hp0]
        simp [runAux_nil_none]
      · exact ih hinv (exLast_of_cons_ne hlast (by simp))

theorem charIndicesAux_getLast (cs : List Char) :
    ∀ i ch, cs.getLast? = some ch → ∃ k, (charIndicesAux i cs).getLast? = some (k, ch) := by
  induction cs with
  | nil =>
      intro i ch h
      simp at h
  | cons c cs ih =>
      intro i ch h
      rcases cs with _ | ⟨d, ds⟩
      · simp at h
        subst h
        exact ⟨i, rfl⟩
      · have h' : (d :: ds).getLast? = some ch := by simpa [List.getLast?_cons_cons] using h
        obtain ⟨k, hk⟩ := ih (i + c.utf8Size) ch h'
        refine ⟨k, ?_⟩
        simp only [charIndicesAux] at hk ⊢
        simpa [List.getLast?_cons_cons] using hk

/-- C4 (amended): a line fails with `NoLineFeedAtEOF` exactly when a generic
token is still open at the moment the line's characters are exhausted; a
line ending in its terminator never fails with `NoLineFeedAtEOF`, the
terminator being whitespace that closes any open token (the closing may
still surface that token's own finalization error); an identifier-class
final line without the terminator fails with `NoLineFeedAtEOF` while the
same text with the terminator appended succeeds. -/
theorem no_line_feed_eol (n : Nat) :
    (∀ (line : String) (fuel : Nat) (inner : Inner) (prev : Option (Pos × State))
        (acc : List (Range × Token)),
        ((runAux n line (fuel + 1) inner prev acc []).2.2 = some .NoLineFeedAtEOF
          ↔ prev.isSome = true))
    ∧ (∀ (inner : Inner) (line : String), InnerExcl inner →
        line.toList.getLast? = some '\n' →
        (run inner n line).2.2 ≠ some .NoLineFeedAtEOF)
    ∧ (∀ s : String, identClass s = true →
        (run Inner.new n s).2.2 = some .NoLineFeedAtEOF
        ∧ (run Inner.new n (s.push '\n')).2.2 = none) := by
  refine ⟨?_, ?_, ?_⟩
  · intro line fuel inner prev acc
    cases prev <;> simp [runAux]
  · intro inner line hex hlast
    unfold run
    refine runAux_terminator n line _ inner none [] _
      ⟨fun hc => ⟨rfl, hex.resolve_left hc⟩, fun _ => rfl⟩ ?_
    unfold charIndices
    exact charIndicesAux_getLast line.toList 0 '\n' hlast
  · intro s hs
    rcases hlist : s.toList with _ | ⟨c0, cs⟩
    · rw [identClass, hlist] at hs
      simp at hs
    · have hsc : identStartChar c0 = true := by
        have h := hs
        rw [identClass, hlist] at h
        simp at h
        exact h.1
      have hall : ∀ x ∈ cs, identContChar x = true := by
        have h := hs
        rw [identClass, hlist] at h
        simp [List.all_eq_true] at h
        exact fun x hx => h.2 x hx
      constructor
      · unfold run
        have hCI : charIndices s = (0, c0) :: charIndicesAux c0.utf8Size cs := by
          unfold charIndices
          rw [hlist]
          simp [charIndicesAux]
        rw [hCI]
        have hlen : ((0, c0) :: charIndicesAux c0.utf8Size cs).length + 1
            = ((charIndicesAux c0.utf8Size cs).length + 1) + 1 := by
          simp
        rw [hlen]
        rw [runAux_begin_identStart n s _ 0 c0 [] _ hsc]
        have hcont := runAux_ident_cont n s { line := n, byte := 0 }
          (charIndicesAux c0.utf8Size cs) [] 1 []
          (fun x hx => hall x.2 (charIndicesAux_mem_snd cs c0.utf8Size x hx))
        rw [List.append_nil] at hcont
        rw [hcont]
        rfl
      · have hpush : (s.push '\n').toList = c0 :: (cs ++ ['\n']) := by
          rw [toList_push, hlist]
          rfl
        have hk : c0.utf8Size + utf8Len cs = utf8Len s.toList := by
          rw [hlist]
          rfl
        have hCI : charIndices (s.push '\n')
            = (0, c0) :: (charIndicesAux c0.utf8Size cs
                ++ [(c0.utf8Size + utf8Len cs, '\n')]) := by
          unfold charIndices
          rw [hpush]
          simp [charIndicesAux, charIndicesAux_append]
        unfold run
        rw [hCI]
        have hlen : ((0, c0) :: (charIndicesAux c0.utf8Size cs
              ++ [(c0.utf8Size + utf8Len cs, '\n')])).length + 1
            = ((charIndicesAux c0.utf8Size cs).length + 2) + 1 := by
          simp
        rw [hlen]
        rw [runAux_begin_identStart n (s.push '\n') _ 0 c0 [] _ hsc]
        rw [runAux_ident_cont n (s.push '\n') { line := n, byte := 0 }
          (charIndicesAux c0.utf8Size cs) [(c0.utf8Size + utf8Len cs, '\n')] 2 []
          (fun x hx => hall x.2 (charIndicesAux_mem_snd cs c0.utf8Size x hx))]
        have hns : nextState .Identifier '\n' = none := rfl
        simp [runAux, Inner.new, hns, finalize, begin_newline, runAux_nil_none]

/-- Counterexample to C4 as stated: `1e` as the final line without a
terminator fails with `NoLineFeedAtEOF` (it ends mid-token), but the same
text with the terminator appended does not succeed — it fails with the
incomplete-scientific-notation error. -/
theorem no_line_feed_eol_counterexample :
    (run Inner.new 0 "1e").2.2 = some .NoLineFeedAtEOF
    ∧ (run Inner.new 0 "1e\n").2.2
        = some (.IncompleteScientific
            { start := { line := 0, byte := 0 }, stop := { line := 0, byte := 2 } })
    ∧ (run Inner.new 0 "1e\n").2.2 ≠ none :=
  ⟨by decide, by decide, by decide⟩

/-- Witness for C4 at the identifier-class text `ab`. -/
theorem no_line_feed_eol_witness :
    identClass "ab" = true
    ∧ (run Inner.new 0 "ab").2.2 = some .NoLineFeedAtEOF
    ∧ (run Inner.new 0 ("ab".push '\n')).2.2 = none :=
  ⟨by decide, ((no_line_feed_eol 0).2.2 "ab" (by decide)).1,
    ((no_line_feed_eol 0).2.2 "ab" (by decide)).2⟩

/-! ## The driver's `ask`/`next` interplay (C2) -/

theorem read_true_reader (lx : Lexer) (log : List String) (lx' : Lexer)
    (log' : List String) (h : read lx log = (.ok true, lx', log')) :
    lx'.reader.length < lx.reader.length := by
  unfold read at h
  cases hr : lx.reader with
  | nil =>
      rw [hr] at h
      rcases hc : lx.inner.comment.getLast? with _ | p <;> rw [hc] at h
      · rcases hs : lx.inner.string with _ | ps <;> rw [hs] at h <;> simp_all
      · simp_all
  | cons line rest =>
      rw [hr] at h
      dsimp only at h
      rcases hrun : run lx.inner log.length line with ⟨inner', toks, err⟩
      rw [hrun] at h
      rcases err with _ | e
      · simp only [Prod.mk.injEq, Except.ok.injEq] at h
        rw [← h.2.1]
        simp
      · simp_all

theorem read_false_shape (lx : Lexer) (log : List String) (lx' : Lexer)
    (log' : List String) (h : read lx log = (.ok false, lx', log')) :
    lx' = lx ∧ log' = log ∧ lx.reader = []
      ∧ lx.inner.comment = [] ∧ lx.inner.string = none := by
  unfold read at h
  cases hr : lx.reader with
  | nil =>
      rw [hr] at h
      rcases hc : lx.inner.comment.getLast? with _ | p <;> rw [hc] at h
      · rcases hs : lx.inner.string with _ | ps <;> rw [hs] at h
        · simp only [Prod.mk.injEq, Except.ok.injEq] at h
          exact ⟨h.2.1.symm, h.2.2.symm, rfl, List.getLast?_eq_none_iff.mp hc, rfl⟩
        · simp at h
      · simp at h
  | cons line rest =>
      rw [hr] at h
      dsimp only at h
      rcases hrun : run lx.inner log.length line with ⟨inner', toks, err⟩
      rw [hrun] at h
      rcases err with _ | e <;> simp at h

theorem read_exhausted (lx : Lexer) (log : List String) (hr : lx.reader = [])
    (hc : lx.inner.comment = []) (hs : lx.inner.string = none) :
    read lx log = (.ok false, lx, log) := by
  unfold read
  rw [hr]
  rw [show lx.inner.comment.getLast? = none by simp [hc]]
  rw [hs]

theorem ask_front (lx : Lexer) (f : Token → Bool) (log : List String)
    (r : Range) (t : Token) (q : List (Range × Token)) (h : lx.queue = (r, t) :: q) :
    ask lx f log = (.ok (f t), lx, log) := by
  rw [ask, h]

theorem next_front (lx : Lexer) (log : List String)
    (r : Range) (t : Token) (q : List (Range × Token)) (h : lx.queue = (r, t) :: q) :
    next lx log = (.ok (some (r, t)), { lx with queue := q }, log) := by
  rw [next, h]

theorem ask_exhausted (lx : Lexer) (f : Token → Bool) (log : List String)
    (hq : lx.queue = []) (hr : lx.reader = [])
    (hc : lx.inner.comment = []) (hs : lx.inner.string = none) :
    ask lx f log = (.ok false, lx, log) := by
  rw [ask, hq]
  have hread := read_exhausted lx log hr hc hs
  dsimp only
  split
  · rename_i heq
    rw [hread] at heq
    simp at heq
  · rename_i heq
    rw [hread] at heq
    simp only [Prod.mk.injEq, Except.ok.injEq, true_and] at heq
    rw [heq.1, heq.2]
  · rename_i heq
    rw [hread] at heq
    simp at heq

theorem next_exhausted (lx : Lexer) (log : List String)
    (hq : lx.queue = []) (hr : lx.reader = [])
    (hc : lx.inner.comment = []) (hs : lx.inner.string = none) :
    next lx log = (.ok none, lx, log) := by
  rw [next, hq]
  have hread := read_exhausted lx log hr hc hs
  dsimp only
  split
  · rename_i heq
    rw [hread] at heq
    simp at heq
  · rename_i heq
    rw [hread] at heq
    simp only [Prod.mk.injEq, Except.ok.injEq, true_and] at heq
    rw [heq.1, heq.2]
  · rename_i heq
    rw [hread] at heq
    simp at heq

theorem ask_read_true (lx : Lexer) (f : Token → Bool) (log : List String)
    (lx' : Lexer) (log' : List String) (hq : lx.queue = [])
    (h : read lx log = (.ok true, lx', log')) :
    ask lx f log = ask lx' f log' := by
  rw [ask, hq]
  dsimp only
  split
  · rename_i heq
    rw [h] at heq
    simp only [Prod.mk.injEq, Except.ok.injEq, true_and] at heq
    rw [heq.1, heq.2]
  · rename_i heq
    rw [h] at heq
    simp at heq
  · rename_i heq
    rw [h] at heq
    simp at heq

theorem ask_read_error (lx : Lexer) (f : Token → Bool) (log : List String)
    (e : Error) (lx' : Lexer) (log' : List String) (hq : lx.queue = [])
    (h : read lx log = (.error e, lx', log')) :
    ask lx f log = (.error e, lx', log') := by
  rw [ask, hq]
  dsimp only
  split
  · rename_i heq
    rw [h] at heq
    simp at heq
  · rename_i heq
    rw [h] at heq
    simp at heq
  · rename_i heq
    rw [h] at heq
    simp only [Prod.mk.injEq, Except.error.injEq] at heq
    rw [heq.1, heq.2.1, heq.2.2]

/-- The result state of a successful `ask`: either the queue now fronts the
token the predicate was evaluated on, or the input is exhausted with a clean
cross-line state and the answer is `false`. -/
theorem ask_shape (N : Nat) : ∀ (lx : Lexer) (log : List String) (f : Token → Bool)
    (b : Bool) (lx' : Lexer) (log' : List String), lx.reader.length ≤ N →
    ask lx f log = (.ok b, lx', log') →
    (∃ r t q, lx'.queue = (r, t) :: q ∧ b = f t)
    ∨ (b = false ∧ lx'.queue = [] ∧ lx'.reader = []
        ∧ lx'.inner.comment = [] ∧ lx'.inner.string = none) := by
  induction N with
  | zero =>
      intro lx log f b lx' log' hN h
      rcases hq : lx.queue with _ | ⟨⟨r, t⟩, q⟩
      · rcases hread : read lx log with ⟨res, lx2, log2⟩
        rcases res with e | b2
        · rw [ask_read_error lx f log e lx2 log2 hq hread] at h
          simp at h
        · rcases b2 with _ | _
          · obtain ⟨-, -, hrd, hcc, hss⟩ := read_false_shape lx log lx2 log2 hread
            rw [ask_exhausted lx f log hq hrd hcc hss] at h
            simp only [Prod.mk.injEq, Except.ok.injEq] at h
            refine Or.inr ⟨h.1.symm, ?_, ?_, ?_, ?_⟩ <;> rw [← h.2.1]
            exacts [hq, hrd, hcc, hss]
          · have := read_true_reader lx log lx2 log2 hread
            omega
      · rw [ask_front lx f log r t q hq] at h
        simp only [Prod.mk.injEq, Except.ok.injEq] at h
        refine Or.inl ⟨r, t, q, ?_, h.1.symm⟩
        rw [← h.2.1]
        exact hq
  | succ N ih =>
      intro lx log f b lx' log' hN h
      rcases hq : lx.queue with _ | ⟨⟨r, t⟩, q⟩
      · rcases hread : read lx log with ⟨res, lx2, log2⟩
        rcases res with e | b2
        · rw [ask_read_error lx f log e lx2 log2 hq hread] at h
          simp at h
        · rcases b2 with _ | _
          · obtain ⟨-, -, hrd, hcc, hss⟩ := read_false_shape lx log lx2 log2 hread
            rw [ask_exhausted lx f log hq hrd hcc hss] at h
            simp only [Prod.mk.injEq, Except.ok.injEq] at h
            refine Or.inr ⟨h.1.symm, ?_, ?_, ?_, ?_⟩ <;> rw [← h.2.1]
            exacts [hq, hrd, hcc, hss]
          · rw [ask_read_true lx f log lx2 log2 hq hread] at h
            have hlt := read_true_reader lx log lx2 log2 hread
            exact ih lx2 log2 f b lx' log' (by omega) h
      · rw [ask_front lx f log r t q hq] at h
        simp only [Prod.mk.injEq, Except.ok.injEq] at h
        refine Or.inl ⟨r, t, q, ?_, h.1.symm⟩
        rw [← h.2.1]
        exact hq

/-- C2: `ask` does not consume from the token queue: after a successful
`ask`, a second `ask` with any predicate evaluates it on the same front
token and leaves the driver state unchanged, and `next` still returns that
same front token; once the input source is exhausted (with a clean
cross-line state) `ask` returns `false` rather than pulling input forever —
the pull loop consumes one reader line per iteration. -/
theorem ask_non_consuming :
    (∀ (lx : Lexer) (log : List String) (f g : Token → Bool) (b : Bool)
        (lx' : Lexer) (log' : List String),
        ask lx f log = (.ok b, lx', log') →
        (∃ r t q, lx'.queue = (r, t) :: q ∧ b = f t
          ∧ ask lx' g log' = (.ok (g t), lx', log')
          ∧ next lx' log' = (.ok (some (r, t)), { lx' with queue := q }, log'))
        ∨ (b = false ∧ ask lx' g log' = (.ok false, lx', log')
            ∧ next lx' log' = (.ok none, lx', log')))
    ∧ (∀ (lx : Lexer) (log : List String) (f : Token → Bool),
        lx.reader = [] → lx.queue = [] → lx.inner.comment = [] →
        lx.inner.string = none → ask lx f log = (.ok false, lx, log)) := by
  constructor
  · intro lx log f g b lx' log' h
    rcases ask_shape lx.reader.length lx log f b lx' log' le_rfl h with
      ⟨r, t, q, hfr, hb⟩ | ⟨hb, hq, hrd, hcc, hss⟩
    · exact Or.inl ⟨r, t, q, hfr, hb, ask_front lx' g log' r t q hfr,
        next_front lx' log' r t q hfr⟩
    · exact Or.inr ⟨hb, ask_exhausted lx' g log' hq hrd hcc hss,
        next_exhausted lx' log' hq hrd hcc hss⟩
  · intro lx log f hr hq hc hs
    exact ask_exhausted lx f log hq hr hc hs

/-- Witness for C2 at an exhausted source. -/
theorem ask_non_consuming_witness :
    (Lexer.mk [] Inner.new []).reader = []
    ∧ (Lexer.mk [] Inner.new []).queue = []
    ∧ (Lexer.mk [] Inner.new []).inner.comment = []
    ∧ (Lexer.mk [] Inner.new []).inner.string = none
    ∧ ask (Lexer.mk [] Inner.new []) (fun _ => false) []
        = (.ok false, Lexer.mk [] Inner.new [], []) :=
  ⟨rfl, rfl, rfl, rfl,
    ask_non_consuming.2 (Lexer.mk [] Inner.new []) [] (fun _ => false) rfl rfl rfl rfl⟩

/-- C3 (amended): when the input source reports exhaustion (the reader is
empty): if a block comment is still open, `read` fails with
`UnterminatedComment` whose position is the opening position of the
*innermost* (most recently opened) nesting level, and that level is popped;
else if a string literal is still open, it fails with
`UnterminatedStringLiteral` at the opening quote, clearing the open string;
otherwise it signals ordinary end of input (`next` returns `none`). -/
theorem unterminated_at_exhaustion (lx : Lexer) (log : List String)
    (hr : lx.reader = []) :
    (∀ p, lx.inner.comment.getLast? = some p →
        read lx log = (.error (.UnterminatedComment p),
          { lx with inner := { lx.inner with comment := lx.inner.comment.dropLast } },
          log))
    ∧ (lx.inner.comment = [] → ∀ p s, lx.inner.string = some (p, s) →
        read lx log = (.error (.UnterminatedStringLiteral p),
          { lx with inner := { lx.inner with string := none } }, log))
    ∧ (lx.inner.comment = [] → lx.inner.string = none → lx.queue = [] →
        next lx log = (.ok none, lx, log)) := by
  refine ⟨?_, ?_, ?_⟩
  · intro p hp
    unfold read
    rw [hr, hp]
  · intro hc p s hs
    unfold read
    rw [hr, show lx.inner.comment.getLast? = none by simp [hc], hs]
  · intro hc hs hq
    exact next_exhausted lx log hq hr hc hs

/-- C3 counterexample to the original wording: lexing the single line
"/* /*\n" leaves the comment stack `[⟨0,0⟩, ⟨0,3⟩]` (outermost first), and
`read` at exhaustion then reports `UnterminatedComment ⟨0,3⟩` — the
innermost opening position — not the outermost opening position `⟨0,0⟩`
that the spec names. -/
theorem unterminated_at_exhaustion_counterexample :
    read { reader := ["/* /*\n"], inner := Inner.new, queue := [] } []
      = (.ok true,
         { reader := [],
           inner := { comment := [({ line := 0, byte := 0 } : Pos),
                                  ({ line := 0, byte := 3 } : Pos)],
                      string := none },
           queue := [] },
         ["/* /*\n"])
    ∧ (read { reader := [],
              inner := { comment := [({ line := 0, byte := 0 } : Pos),
                                     ({ line := 0, byte := 3 } : Pos)],
                         string := none },
              queue := [] } ["/* /*\n"]).1
        = .error (.UnterminatedComment { line := 0, byte := 3 })
    ∧ ({ line := 0, byte := 3 } : Pos) ≠ { line := 0, byte := 0 } :=
  ⟨rfl, rfl, by decide⟩

/-- Witness for C3 at a concrete exhausted lexer with two open nesting
levels. -/
theorem unterminated_at_exhaustion_witness :
    ({ reader := [],
       inner := { comment := [({ line := 0, byte := 0 } : Pos),
                              ({ line := 0, byte := 3 } : Pos)],
                  string := none },
       queue := [] } : Lexer).reader = []
    ∧ read { reader := [],
             inner := { comment := [({ line := 0, byte := 0 } : Pos),
                                    ({ line := 0, byte := 3 } : Pos)],
                        string := none },
             queue := [] } []
        = (.error (.UnterminatedComment { line := 0, byte := 3 }),
           { reader := [],
             inner := { comment := [({ line := 0, byte := 0 } : Pos)],
                        string := none },
             queue := [] },
           []) :=
  ⟨rfl,
    (unterminated_at_exhaustion
        { reader := [],
          inner := { comment := [({ line := 0, byte := 0 } : Pos),
                                 ({ line := 0, byte := 3 } : Pos)],
                     string := none },
          queue := [] } [] rfl).1 { line := 0, byte := 3 } rfl⟩

/-- Transitivity of the derived lexicographic order on positions. -/
theorem pos_le_trans {a b c : Pos} (hab : Pos.le a b = true)
    (hbc : Pos.le b c = true) : Pos.le a c = true := by
  simp only [Pos.le, decide_eq_true_eq, Bool.and_eq_true, Bool.or_eq_true] at *
  omega

/-! ## C9: range concatenation contract -/

/-- C9: concatenating two ranges whose first range ends after the second
starts is rejected (the `debug_assert` contract, modelled as the `none`
result) rather than silently producing a range; in source order the
concatenation is the range from the first range's start to the second's
end; and `Range::new` itself requires `start <= end`. -/
theorem range_concat_contract (a b : Range) :
    (Pos.le a.stop b.start = false → Range.add a b = none)
    ∧ (Pos.le a.stop b.start = true → Range.add a b = Range.new a.start b.stop)
    ∧ (Pos.le a.start a.stop = true → Pos.le b.start b.stop = true →
        Pos.le a.stop b.start = true →
        Range.add a b = some { start := a.start, stop := b.stop })
    ∧ (∀ p q : Pos, (Range.new p q).isSome = Pos.le p q) := by
  refine ⟨?_, ?_, ?_, ?_⟩
  · intro h; simp [Range.add, h]
  · intro h; simp [Range.add, h]
  · intro h1 h2 h3
    have hpq : Pos.le a.start b.stop = true := pos_le_trans (pos_le_trans h1 h3) h2
    simp [Range.add, Range.new, h3, hpq]
  · intro p q
    by_cases h : Pos.le p q <;> simp [Range.new, h]

/-- Witness for C9 at concrete ranges. -/
theorem range_concat_contract_witness :
    Pos.le { line := 0, byte := 2 } { line := 0, byte := 5 } = true
    ∧ Range.add { start := { line := 0, byte := 0 }, stop := { line := 0, byte := 2 } }
        { start := { line := 0, byte := 5 }, stop := { line := 0, byte := 9 } }
      = some { start := { line := 0, byte := 0 }, stop := { line := 0, byte := 9 } } :=
  ⟨by decide,
    (range_concat_contract
      { start := { line := 0, byte := 0 }, stop := { line := 0, byte := 2 } }
      { start := { line := 0, byte := 5 }, stop := { line := 0, byte := 9 } }).2.2.1
      (by decide) (by decide) (by decide)⟩

/-! ## C5: behaviour inside a block comment -/

/-- C5: while the block-comment stack is nonempty, `//` ends the whole
remaining line with the cross-line state unchanged (the comment stays open
into the next line), `*/` closes exactly one nesting level, and `/*` opens
exactly one nested level. -/
theorem block_comment_line_steps (n fuel : Nat) (line : String) (inner : Inner)
    (prev : Option (Pos × State)) (acc : List (Range × Token))
    (i j : Nat) (l : List (Nat × Char)) (h : inner.comment ≠ []) :
    runAux n line (fuel + 1) inner prev acc ((i, '/') :: (j, '/') :: l) = (inner, acc, none)
    ∧ runAux n line (fuel + 1) inner prev acc ((i, '*') :: (j, '/') :: l)
        = runAux n line fuel { inner with comment := inner.comment.dropLast } prev acc l
    ∧ inner.comment.dropLast.length + 1 = inner.comment.length
    ∧ runAux n line (fuel + 1) inner prev acc ((i, '/') :: (j, '*') :: l)
        = runAux n line fuel { inner with comment := inner.comment ++ [{ line := n, byte := i }] }
            prev acc l
    ∧ (inner.comment ++ [({ line := n, byte := i } : Pos)]).length
        = inner.comment.length + 1 := by
  obtain ⟨comment, string⟩ := inner
  rcases comment with _ | ⟨p, ps⟩
  · exact absurd rfl h
  · refine ⟨rfl, rfl, ?_, rfl, ?_⟩ <;> simp

/-- Witness for C5 inside a one-level block comment. -/
theorem block_comment_line_steps_witness :
    ([{ line := 0, byte := 0 }] ≠ ([] : List Pos))
    ∧ runAux 0 "" 3 { comment := [{ line := 0, byte := 0 }], string := none } none []
        ((0, '/') :: (1, '/') :: [])
      = ({ comment := [{ line := 0, byte := 0 }], string := none }, [], none) :=
  ⟨by decide,
    (block_comment_line_steps 0 2 "" { comment := [{ line := 0, byte := 0 }], string := none }
      none [] 0 1 [] (by decide)).1⟩

/-! ## C6: escape sequences inside a string literal -/

/-- C6: inside a string literal, `\` consumes exactly the next character of
the line and appends its image under the fixed escape table; a `\` that is
the last character of the line fails with `NoCharacterAfterBackSlash` at the
backslash's position. -/
theorem string_escape_steps (n fuel : Nat) (line : String) (inner : Inner)
    (prev : Option (Pos × State)) (acc : List (Range × Token))
    (i j : Nat) (d : Char) (l : List (Nat × Char)) (start : Pos) (str : String)
    (hc : inner.comment = []) (hs : inner.string = some (start, str)) :
    runAux n line (fuel + 1) inner prev acc ((i, '\\') :: (j, d) :: l)
      = runAux n line fuel { inner with string := some (start, str.push (escape d)) } prev acc l
    ∧ runAux n line (fuel + 1) inner prev acc [(i, '\\')]
      = (inner, acc, some (.NoCharacterAfterBackSlash { line := n, byte := i }))
    ∧ escape 'n' = '\n' ∧ escape 'r' = '\r' ∧ escape 't' = '\t'
    ∧ escape '0' = '\x00' ∧ escape '\\' = '\\' ∧ escape '"' = '"'
    ∧ (∀ c : Char, c ≠ 'n' → c ≠ 'r' → c ≠ 't' → c ≠ '0' → escape c = c) := by
  obtain ⟨comment, string⟩ := inner
  simp only at hc hs
  subst hc hs
  refine ⟨rfl, rfl, rfl, rfl, rfl, rfl, rfl, rfl, ?_⟩
  intro c h1 h2 h3 h4
  unfold escape
  split <;> simp_all

/-- C7: finalization in `ScientificIncomplete` or `ScientificSign` (exponent
marker present, digits absent) is the error `IncompleteScientificNotation`
carrying the token's range — at the automaton level the error is returned
with no token appended — while finalization in `Integer`, `Decimal` or
`Scientific` is a number token; `1e` followed by a delimiter fails. -/
theorem scientific_finalization :
    (∀ (line : String) (start p : Pos),
        finalize line start p .ScientificIncomplete
          = .error (.IncompleteScientific { start := start, stop := p })
        ∧ finalize line start p .ScientificSign
          = .error (.IncompleteScientific { start := start, stop := p })
        ∧ finalize line start p .Integer = .ok (.Number (sliceBytes line start.byte p.byte))
        ∧ finalize line start p .Decimal = .ok (.Number (sliceBytes line start.byte p.byte))
        ∧ finalize line start p .Scientific = .ok (.Number (sliceBytes line start.byte p.byte)))
    ∧ (∀ (n fuel : Nat) (line : String) (inner : Inner) (acc : List (Range × Token))
        (start : Pos) (st : State) (i : Nat) (c : Char) (iter : List (Nat × Char)),
        inner.comment = [] → inner.string = none →
        (st = .ScientificIncomplete ∨ st = .ScientificSign) →
        nextState st c = none →
        runAux n line (fuel + 1) inner (some (start, st)) acc ((i, c) :: iter)
          = (inner, acc,
              some (.IncompleteScientific { start := start, stop := { line := n, byte := i } })))
    ∧ run Inner.new 0 "1e\n"
        = (Inner.new, [],
            some (.IncompleteScientific
              { start := { line := 0, byte := 0 }, stop := { line := 0, byte := 2 } })) := by
  refine ⟨fun line start p => ⟨rfl, rfl, rfl, rfl, rfl⟩, ?_, by decide⟩
  intro n fuel line inner acc start st i c iter hc hs hst hns
  rcases hst with rfl | rfl <;> simp [runAux, hc, hs, hns, finalize]

/-- Witness for C7: finalizing `ScientificIncomplete` at a space. -/
theorem scientific_finalization_witness :
    ((Inner.new : Inner).comment = [] ∧ (Inner.new : Inner).string = none
      ∧ nextState .ScientificIncomplete ' ' = none)
    ∧ runAux 0 "1e " 1 Inner.new (some ({ line := 0, byte := 0 }, .ScientificIncomplete))
        [] [(2, ' ')]
      = (Inner.new, [],
          some (.IncompleteScientific
            { start := { line := 0, byte := 0 }, stop := { line := 0, byte := 2 } })) :=
  ⟨⟨rfl, rfl, rfl⟩,
    scientific_finalization.2.1 0 0 "1e " Inner.new [] { line := 0, byte := 0 }
      .ScientificIncomplete 2 ' ' [] rfl rfl (Or.inl rfl) rfl⟩

/-- C8: every line obtained from the input source is appended to the
diagnostic log — also when the automaton reports a lexical error on it — the
log grows by exactly one entry per line read and the old log stays a prefix
(never truncated); the automaton receives `log.len()`, the appended line's
index, as its line number.  When the reader is exhausted no entry is
appended. -/
theorem log_append_per_line (lx : Lexer) (log : List String) :
    (∀ line rest, lx.reader = line :: rest →
        (read lx log).2.2 = log ++ [line]
        ∧ (read lx log).2.2.length = log.length + 1
        ∧ log <+: (read lx log).2.2
        ∧ (read lx log).2.1.inner = (run lx.inner log.length line).1)
    ∧ (lx.reader = [] → (read lx log).2.2 = log) := by
  constructor
  · intro line rest h
    unfold read
    rw [h]
    dsimp only
    rcases hrun : run lx.inner log.length line with ⟨inner', toks, err⟩
    rcases err with _ | e <;> simp
  · intro h
    unfold read
    rw [h]
    rcases hc : lx.inner.comment.getLast? with _ | p
    · rcases hs : lx.inner.string with _ | ps <;> simp
    · simp

/-- Witness for C8: a line that fails to lex (`"1e\n"`) is still appended. -/
theorem log_append_per_line_witness :
    (Lexer.mk ["1e\n"] Inner.new []).reader = "1e\n" :: []
    ∧ (read (Lexer.mk ["1e\n"] Inner.new []) []).2.2 = [] ++ ["1e\n"]
    ∧ (read (Lexer.mk ["1e\n"] Inner.new []) []).1
        = .error (.IncompleteScientific
            { start := { line := 0, byte := 0 }, stop := { line := 0, byte := 2 } }) :=
  ⟨rfl,
    ((log_append_per_line (Lexer.mk ["1e\n"] Inner.new []) []).1 "1e\n" [] rfl).1,
    rfl⟩

/-- Witness for C6 inside an open string literal. -/
theorem string_escape_steps_witness :
    ((Inner.mk [] (some ({ line := 0, byte := 0 }, "a"))).comment = []
      ∧ (Inner.mk [] (some ({ line := 0, byte := 0 }, "a"))).string
          = some ({ line := 0, byte := 0 }, "a"))
    ∧ runAux 0 "" 2 (Inner.mk [] (some ({ line := 0, byte := 0 }, "a"))) none [] [(1, '\\')]
      = (Inner.mk [] (some ({ line := 0, byte := 0 }, "a")), [],
          some (.NoCharacterAfterBackSlash { line := 0, byte := 1 })) :=
  ⟨⟨rfl, rfl⟩,
    (string_escape_steps 0 1 "" (Inner.mk [] (some ({ line := 0, byte := 0 }, "a"))) none []
      1 2 'n' [] { line := 0, byte := 0 } "a" rfl rfl).2.1⟩

end Cryss
